import Mathlib

/-!
Shallow embedding of `src/data_processing.c` (repository Oliver0804/cDsp).

Modelling conventions:
* A C `double` buffer is a `List ℚ` (exact arithmetic idealisation of the
  double-precision values); a possibly-NULL pointer is an `Option (List ℚ)`,
  with `none` standing for `NULL`.
* `int` parameters and loop variables are Lean `Int`.
* Every array access goes through `readAt` / `writeAt`, which return `none`
  when the index is outside the buffer: a result of `none` for a whole
  function models a memory fault (out-of-bounds access or NULL dereference),
  while `some` means the call completed without any out-of-bounds access.
* Functions that in C mutate a caller buffer return the final contents of
  that buffer.
-/

namespace CDsp

/-- Read `l[i]` (C `buf[i]`); `none` when `i` is outside the buffer. -/
def readAt (l : List ℚ) (i : Int) : Option ℚ :=
  if 0 ≤ i then l[i.toNat]? else none

/-- Write `l[i] := v` (C `buf[i] = v`); `none` when `i` is outside the buffer. -/
def writeAt (l : List ℚ) (i : Int) (v : ℚ) : Option (List ℚ) :=
  if 0 ≤ i ∧ i.toNat < l.length then some (l.set i.toNat v) else none

/-- Inner loop of `calculateMovingAverage` (data_processing.c:46-48):
`for (int j = i; j >= 0 && count < windowSize; --j, ++count) sum += inputData[j];`
returns the final `(sum, count)`. -/
def maInner (inputData : List ℚ) (windowSize : Int) (j count : Int) (sum : ℚ) :
    Option (ℚ × Int) :=
  if h : 0 ≤ j ∧ count < windowSize then
    match readAt inputData j with
    | none => none
    | some v => maInner inputData windowSize (j - 1) (count + 1) (sum + v)
  else
    some (sum, count)
termination_by (j + 1).toNat
decreasing_by omega

/-- Outer loop of `calculateMovingAverage` (data_processing.c:43-50):
for each `i`, run the inner loop and store `sum / count` in `outputData[i]`. -/
def maOuter (inputData : List ℚ) (dataSize windowSize : Int) (i : Int)
    (outputData : List ℚ) : Option (List ℚ) :=
  if h : i < dataSize then
    match maInner inputData windowSize i 0 0 with
    | none => none
    | some (sum, count) =>
      match writeAt outputData i (sum / (count : ℚ)) with
      | none => none
      | some out2 => maOuter inputData dataSize windowSize (i + 1) out2
  else
    some outputData
termination_by (dataSize - i).toNat
decreasing_by omega

/-- `calculateMovingAverage` (data_processing.c:38-51).  Returns the final
contents of the output buffer (`some (some _)`), the unchanged
`outputData` argument when the guard fires, or `none` on a memory fault. -/
def calculateMovingAverage (inputData outputData : Option (List ℚ))
    (dataSize windowSize : Int) : Option (Option (List ℚ)) :=
  match inputData, outputData with
  | some inp, some outp =>
    if dataSize ≤ 0 ∨ windowSize ≤ 0 then some (some outp)
    else (maOuter inp dataSize windowSize 0 outp).map some
  | _, _ => some outputData

/-- The literal `3.14159265358979323846` from data_processing.c:91, as an
exact rational (it is the decimal expansion of π to 21 significant digits,
in particular π to more than IEEE double precision). -/
def piApprox : ℚ := 3.14159265358979323846

/-- Loop of `butterworthLowPassFilter` (data_processing.c:95-97):
`outputData[i] = alpha * inputData[i] + (1 - alpha) * outputData[i - 1];`. -/
def bwLoop (inputData : List ℚ) (alpha : ℚ) (dataSize : Int) (i : Int)
    (outputData : List ℚ) : Option (List ℚ) :=
  if h : i < dataSize then
    match readAt inputData i, readAt outputData (i - 1) with
    | some v, some prev =>
      match writeAt outputData i (alpha * v + (1 - alpha) * prev) with
      | none => none
      | some out2 => bwLoop inputData alpha dataSize (i + 1) out2
    | _, _ => none
  else
    some outputData
termination_by (dataSize - i).toNat
decreasing_by omega

/-- `butterworthLowPassFilter` (data_processing.c:85-98). -/
def butterworthLowPassFilter (inputData outputData : Option (List ℚ))
    (dataSize : Int) (cutoffFrequency samplingRate : ℚ) :
    Option (Option (List ℚ)) :=
  match inputData, outputData with
  | some inp, some outp =>
    if dataSize ≤ 0 ∨ cutoffFrequency ≤ 0 ∨ samplingRate ≤ 0 then
      some (some outp)
    else
      let dt : ℚ := 1 / samplingRate
      let RC : ℚ := 1 / (2 * piApprox * cutoffFrequency)
      let alpha : ℚ := dt / (RC + dt)
      match readAt inp 0 with
      | none => none
      | some v0 =>
        match writeAt outp 0 v0 with
        | none => none
        | some out1 => (bwLoop inp alpha dataSize 1 out1).map some
  | _, _ => some outputData

/-- First loop of `detectMovement` (data_processing.c:112-114): zero the
output buffer. -/
def dmInit (dataSize : Int) (i : Int) (outputData : List ℚ) :
    Option (List ℚ) :=
  if h : i < dataSize then
    match writeAt outputData i 0 with
    | none => none
    | some out2 => dmInit dataSize (i + 1) out2
  else
    some outputData
termination_by (dataSize - i).toNat
decreasing_by omega

/-- Second loop of `detectMovement` (data_processing.c:117-120): store the
absolute second difference at the interior indices `1 ≤ i ≤ dataSize - 2`. -/
def dmAccel (inputData : List ℚ) (dtSquared : ℚ) (dataSize : Int) (i : Int)
    (outputData : List ℚ) : Option (List ℚ) :=
  if h : i < dataSize - 1 then
    match readAt inputData (i + 1), readAt inputData i, readAt inputData (i - 1) with
    | some a, some b, some c =>
      match writeAt outputData i (|(a - 2 * b + c) / dtSquared|) with
      | none => none
      | some out2 => dmAccel inputData dtSquared dataSize (i + 1) out2
    | _, _, _ => none
  else
    some outputData
termination_by (dataSize - 1 - i).toNat
decreasing_by omega

/-- Third loop of `detectMovement` (data_processing.c:123-129): replace each
entry by `1.0` when it exceeds `threshold`, else `0.0`. -/
def dmThresh (threshold : ℚ) (dataSize : Int) (i : Int) (outputData : List ℚ) :
    Option (List ℚ) :=
  if h : i < dataSize then
    match readAt outputData i with
    | none => none
    | some v =>
      match writeAt outputData i (if v > threshold then 1 else 0) with
      | none => none
      | some out2 => dmThresh threshold dataSize (i + 1) out2
  else
    some outputData
termination_by (dataSize - i).toNat
decreasing_by omega

/-- `detectMovement` (data_processing.c:103-130). -/
def detectMovement (inputData outputData : Option (List ℚ)) (dataSize : Int)
    (threshold samplingRate : ℚ) : Option (Option (List ℚ)) :=
  match inputData, outputData with
  | some inp, some outp =>
    if dataSize < 3 ∨ samplingRate ≤ 0 then some (some outp)
    else
      let dt : ℚ := 1 / samplingRate
      let dtSquared : ℚ := dt * dt
      match dmInit dataSize 0 outp with
      | none => none
      | some out1 =>
        match dmAccel inp dtSquared dataSize 1 out1 with
        | none => none
        | some out2 => (dmThresh threshold dataSize 0 out2).map some
  | _, _ => some outputData

/-- Loop of `applyZupt` (data_processing.c:140-151): run-length scan over
`accelData`, zeroing `velocityData[i]` on below-threshold samples, early
exit with code 1 when the run counter reaches `continuousCountThreshold`;
code 0 when the scan completes. -/
def zuptLoop (accelData : List ℚ) (threshold : ℚ)
    (continuousCountThreshold dataSize : Int) (i continuousCount : Int)
    (velocityData : List ℚ) : Option (Int × List ℚ) :=
  if h : i < dataSize then
    match readAt accelData i with
    | none => none
    | some a =>
      if |a| < threshold then
        match writeAt velocityData i 0 with
        | none => none
        | some vel2 =>
          if continuousCount + 1 ≥ continuousCountThreshold then some (1, vel2)
          else
            zuptLoop accelData threshold continuousCountThreshold dataSize
              (i + 1) (continuousCount + 1) vel2
      else
        zuptLoop accelData threshold continuousCountThreshold dataSize
          (i + 1) 0 velocityData
  else
    some (0, velocityData)
termination_by (dataSize - i).toNat
decreasing_by all_goals omega

/-- `applyZupt` (data_processing.c:134-153).  Result: `some (code, vel)`
where `code` is the C return value and `vel` the final contents of the
velocity buffer (`none` inside means the pointer was NULL); an outer `none`
models a memory fault. -/
def applyZupt (velocityData accelData : Option (List ℚ)) (dataSize : Int)
    (threshold : ℚ) (continuousCountThreshold : Int) :
    Option (Int × Option (List ℚ)) :=
  match velocityData, accelData with
  | some vel, some acc =>
    if dataSize ≤ 0 then some (-1, some vel)
    else
      (zuptLoop acc threshold continuousCountThreshold dataSize 0 0 vel).map
        (fun r => (r.1, some r.2))
  | _, _ => some (-1, velocityData)

/-- Loop of `applyLowPassFilter` (data_processing.c:160-163). -/
def alpfLoop (alpha : ℚ) (dataSize : Int) (i : Int) (filteredValue : ℚ)
    (data : List ℚ) : Option (List ℚ) :=
  if h : i < dataSize then
    match readAt data i with
    | none => none
    | some v =>
      let fv2 := alpha * v + (1 - alpha) * filteredValue
      match writeAt data i fv2 with
      | none => none
      | some d2 => alpfLoop alpha dataSize (i + 1) fv2 d2
  else
    some data
termination_by (dataSize - i).toNat
decreasing_by omega

/-- `applyLowPassFilter` (data_processing.c:156-164).  Note: the C function
has no guard; it reads `data[0]` unconditionally, so a NULL buffer or an
empty buffer is a memory fault (`none`). -/
def applyLowPassFilter (data : Option (List ℚ)) (dataSize : Int) :
    Option (Option (List ℚ)) :=
  match data with
  | some d =>
    let alpha : ℚ := 0.1
    match readAt d 0 with
    | none => none
    | some v0 => (alpfLoop alpha dataSize 1 v0 d).map some
  | none => none

/-! ## Specification-side definitions (used to state the claims) -/

/-- The trailing window of the moving average at index `i`: the samples
`inp[i], inp[i-1], …`, at most `w` of them, truncated at the start of the
sequence (so its length is `min (i+1) w` when `i < inp.length`). -/
def window (inp : List ℚ) (i w : Nat) : List ℚ :=
  ((inp.take (i + 1)).reverse).take w

/-- The forward run-counter scan described by the spec for `applyZupt`:
the counter increments on `|a| < threshold` and resets to 0 otherwise;
result `true` means the counter reached `continuousCountThreshold`
(`c ≥ continuousCountThreshold` after an increment) before the scan
completed. -/
def runScan (threshold : ℚ) (cct : Int) (cc : Int) : List ℚ → Bool
  | [] => false
  | a :: rest =>
    if |a| < threshold then
      if cc + 1 ≥ cct then true else runScan threshold cct (cc + 1) rest
    else runScan threshold cct 0 rest

/-- Number of indices scanned by `applyZupt`'s loop started with counter
`cc`: all of them, unless the early exit fires. -/
def scanLen (threshold : ℚ) (cct : Int) (cc : Int) : List ℚ → Nat
  | [] => 0
  | a :: rest =>
    if |a| < threshold then
      if cc + 1 ≥ cct then 1 else 1 + scanLen threshold cct (cc + 1) rest
    else 1 + scanLen threshold cct 0 rest

/-- Structural model of `applyZupt`'s scan over the (suffix of the) two
buffers: returns the return code and the final velocity suffix. -/
def zuptScan (threshold : ℚ) (cct : Int) (cc : Int) :
    List ℚ → List ℚ → Int × List ℚ
  | a :: as, v :: vs =>
    if |a| < threshold then
      if cc + 1 ≥ cct then (1, 0 :: vs)
      else
        ((zuptScan threshold cct (cc + 1) as vs).1,
          0 :: (zuptScan threshold cct (cc + 1) as vs).2)
    else
      ((zuptScan threshold cct 0 as vs).1,
        v :: (zuptScan threshold cct 0 as vs).2)
  | _, vs => (0, vs)

/-- The value detectMovement's second loop leaves at index `k` (the absolute
second difference at interior indices, `0` at the boundaries). -/
def dmMid (inp : List ℚ) (dtSquared : ℚ) (n : Nat) (k : Nat) : ℚ :=
  if 1 ≤ k ∧ k + 1 < n then
    |(inp.getD (k + 1) 0 - 2 * inp.getD k 0 + inp.getD (k - 1) 0) / dtSquared|
  else 0

/-- The exponential-filter recurrence `x 0 = inp[0]`,
`x (i+1) = alpha * inp[i+1] + (1 - alpha) * x i`. -/
def bwSpec (alpha : ℚ) (inp : List ℚ) : Nat → ℚ
  | 0 => inp.getD 0 0
  | i + 1 => alpha * inp.getD (i + 1) 0 + (1 - alpha) * bwSpec alpha inp i

/-! ## Claim C7: precondition violations are silent no-ops -/

/-- Claim C7: on any precondition violation (null input or output buffer,
non-positive `dataSize`, non-positive `windowSize` for
`calculateMovingAverage`, non-positive `cutoffFrequency` or `samplingRate`
for `butterworthLowPassFilter`, `dataSize < 3` or non-positive
`samplingRate` for `detectMovement`), each of the three functions returns
without writing: the output buffer is exactly as the caller provided it. -/
theorem C7_guards_silent_no_op (inputData outputData : Option (List ℚ))
    (dataSize windowSize : Int) (cutoffFrequency samplingRate threshold : ℚ) :
    ((inputData = none ∨ outputData = none ∨ dataSize ≤ 0 ∨ windowSize ≤ 0) →
      calculateMovingAverage inputData outputData dataSize windowSize
        = some outputData)
    ∧ ((inputData = none ∨ outputData = none ∨ dataSize ≤ 0 ∨
          cutoffFrequency ≤ 0 ∨ samplingRate ≤ 0) →
      butterworthLowPassFilter inputData outputData dataSize cutoffFrequency
          samplingRate = some outputData)
    ∧ ((inputData = none ∨ outputData = none ∨ dataSize < 3 ∨ samplingRate ≤ 0) →
      detectMovement inputData outputData dataSize threshold samplingRate
        = some outputData) := by
  refine ⟨fun h => ?_, fun h => ?_, fun h => ?_⟩
  · cases inputData with
    | none => rfl
    | some inp =>
      cases outputData with
      | none => rfl
      | some outp =>
        have hc : dataSize ≤ 0 ∨ windowSize ≤ 0 := by
          rcases h with h | h | h | h
          · exact absurd h (by simp)
          · exact absurd h (by simp)
          · exact Or.inl h
          · exact Or.inr h
        simp only [calculateMovingAverage, if_pos hc]
  · cases inputData with
    | none => rfl
    | some inp =>
      cases outputData with
      | none => rfl
      | some outp =>
        have hc : dataSize ≤ 0 ∨ cutoffFrequency ≤ 0 ∨ samplingRate ≤ 0 := by
          rcases h with h | h | h | h | h
          · exact absurd h (by simp)
          · exact absurd h (by simp)
          · exact Or.inl h
          · exact Or.inr (Or.inl h)
          · exact Or.inr (Or.inr h)
        simp only [butterworthLowPassFilter, if_pos hc]
  · cases inputData with
    | none => rfl
    | some inp =>
      cases outputData with
      | none => rfl
      | some outp =>
        have hc : dataSize < 3 ∨ samplingRate ≤ 0 := by
          rcases h with h | h | h | h
          · exact absurd h (by simp)
          · exact absurd h (by simp)
          · exact Or.inl h
          · exact Or.inr h
        simp only [detectMovement, if_pos hc]

/-- Witness for C7 at concrete inputs. -/
theorem C7_guards_silent_no_op_witness :
    calculateMovingAverage (some [1, 2]) (some [7, 8]) 2 0 = some (some [7, 8])
    ∧ butterworthLowPassFilter none (some [7]) 1 5 50 = some (some [7])
    ∧ detectMovement (some [1, 2]) (some [7, 8]) 2 1 1 = some (some [7, 8]) := by
  refine ⟨?_, ?_, ?_⟩
  · exact (C7_guards_silent_no_op (some [1, 2]) (some [7, 8]) 2 0 5 50 1).1
      (Or.inr (Or.inr (Or.inr (by norm_num))))
  · exact (C7_guards_silent_no_op none (some [7]) 1 0 5 50 1).2.1
      (Or.inl rfl)
  · exact (C7_guards_silent_no_op (some [1, 2]) (some [7, 8]) 2 0 5 1 1).2.2
      (Or.inr (Or.inr (Or.inl (by norm_num))))

/-! ## Claim C3: calculateMovingAverage computes trailing-window means -/

lemma readAt_eq {inp : List ℚ} {k : Nat} (hk : k < inp.length) :
    readAt inp (k : Int) = some (inp.get ⟨k, hk⟩) := by
  simp [readAt, List.getElem?_eq_getElem hk]

lemma writeAt_eq {out : List ℚ} {k : Nat} (hk : k < out.length) (v : ℚ) :
    writeAt out (k : Int) v = some (out.set k v) := by
  simp [writeAt, hk]

lemma maInner_step_read {inp : List ℚ} {w j c : Int} {s v : ℚ}
    (h1 : 0 ≤ j) (h2 : c < w) (hv : readAt inp j = some v) :
    maInner inp w j c s = maInner inp w (j - 1) (c + 1) (s + v) := by
  rw [maInner.eq_def, dif_pos ⟨h1, h2⟩]
  simp only [hv]

lemma maInner_step_false {inp : List ℚ} {w j c : Int} {s : ℚ}
    (h : ¬(0 ≤ j ∧ c < w)) :
    maInner inp w j c s = some (s, c) := by
  rw [maInner.eq_def, dif_neg h]

/-- Characterization of the inner summation loop of `calculateMovingAverage`:
starting at index `j` with counter `c < w`, it sums the `(w - c)` (at most)
samples `inp[j], inp[j-1], …` and adds `min (j+1) (w-c)` to the counter. -/
lemma maInner_spec (inp : List ℚ) (w : Int) :
    ∀ (j : Nat), j < inp.length → ∀ (c : Int), c < w → ∀ (s : ℚ),
      maInner inp w (j : Int) c s
        = some (s + (((inp.take (j + 1)).reverse).take (w - c).toNat).sum,
            c + min ((j : Int) + 1) (w - c)) := by
  intro j
  induction j with
  | zero =>
    intro hj c hc s
    rw [maInner_step_read (by norm_num) hc (readAt_eq hj),
      maInner_step_false (by omega)]
    have h1 : inp.take (0 + 1) = [inp.get ⟨0, hj⟩] := by
      rw [List.take_succ, List.take_zero, List.getElem?_eq_getElem hj]
      rfl
    have h2 : (w - c).toNat = (w - c - 1).toNat + 1 := by omega
    rw [h1, h2]
    simp only [List.reverse_singleton, List.take_succ_cons, List.take_nil,
      List.sum_cons, List.sum_nil, add_zero]
    have h3 : c + min (((0 : Nat) : Int) + 1) (w - c) = c + 1 := by
      push_cast
      omega
    rw [h3]
  | succ j ih =>
    intro hj c hc s
    have hjlt : j < inp.length := Nat.lt_of_succ_lt hj
    have hcast : ((j + 1 : Nat) : Int) - 1 = (j : Int) := by push_cast; ring
    have htake : inp.take (j + 1 + 1)
        = inp.take (j + 1) ++ [inp.get ⟨j + 1, hj⟩] := by
      rw [List.take_succ, List.getElem?_eq_getElem hj]
      rfl
    have hrev : (inp.take (j + 1 + 1)).reverse
        = inp.get ⟨j + 1, hj⟩ :: (inp.take (j + 1)).reverse := by
      rw [htake, List.reverse_append, List.reverse_singleton]
      rfl
    rw [maInner_step_read (by positivity) hc (readAt_eq hj), hcast]
    by_cases hcw : c + 1 < w
    · rw [ih hjlt (c + 1) hcw (s + inp.get ⟨j + 1, hj⟩)]
      have h2 : (w - c).toNat = (w - (c + 1)).toNat + 1 := by omega
      rw [hrev, h2, List.take_succ_cons, List.sum_cons]
      have h3 : c + min (((j + 1 : Nat) : Int) + 1) (w - c)
          = c + 1 + min ((j : Int) + 1) (w - (c + 1)) := by
        push_cast
        omega
      rw [h3, add_assoc]
    · rw [maInner_step_false (by omega)]
      have h2 : (w - c).toNat = 1 := by omega
      rw [hrev, h2, List.take_succ_cons, List.take_zero, List.sum_cons,
        List.sum_nil, add_zero]
      have h3 : c + min (((j + 1 : Nat) : Int) + 1) (w - c) = c + 1 := by
        push_cast
        omega
      rw [h3]

lemma maOuter_step_run {inp : List ℚ} {ds w i : Int} {out out2 : List ℚ}
    {sum : ℚ} {count : Int} (h : i < ds)
    (hinner : maInner inp w i 0 0 = some (sum, count))
    (hwr : writeAt out i (sum / (count : ℚ)) = some out2) :
    maOuter inp ds w i out = maOuter inp ds w (i + 1) out2 := by
  rw [maOuter.eq_def, dif_pos h]
  simp only [hinner, hwr]

lemma maOuter_step_false {inp : List ℚ} {ds w i : Int} {out : List ℚ}
    (h : ¬ i < ds) :
    maOuter inp ds w i out = some out := by
  rw [maOuter.eq_def, dif_neg h]

/-- Characterization of the outer loop of `calculateMovingAverage`: indices
below `i` are left as given, indices from `i` up get the trailing-window
mean. -/
lemma maOuter_spec (inp : List ℚ) (ds w : Int) (hw : 1 ≤ w)
    (hlen : inp.length = ds.toNat) :
    ∀ (fuel : Nat) (i : Int) (out : List ℚ), 0 ≤ i → (ds - i).toNat = fuel →
      out.length = ds.toNat →
      ∃ res, maOuter inp ds w i out = some res ∧ res.length = ds.toNat ∧
        (∀ k : Nat, k < i.toNat → res[k]? = out[k]?) ∧
        (∀ k : Nat, i.toNat ≤ k → k < ds.toNat →
          res[k]? = some ((window inp k w.toNat).sum
            / ((min (k + 1) w.toNat : Nat) : ℚ))) := by
  intro fuel
  induction fuel with
  | zero =>
    intro i out hi hfuel hout
    have hge : ¬ i < ds := by omega
    rw [maOuter_step_false hge]
    exact ⟨out, rfl, hout, fun k _ => rfl, fun k hk1 hk2 => by omega⟩
  | succ fuel ih =>
    intro i out hi hfuel hout
    have hlt : i < ds := by omega
    have hjlt : i.toNat < inp.length := by omega
    have hival : ((i.toNat : Nat) : Int) = i := Int.toNat_of_nonneg hi
    have hinner : maInner inp w i 0 0
        = some ((window inp i.toNat w.toNat).sum,
            ((min (i.toNat + 1) w.toNat : Nat) : Int)) := by
      have h0 := maInner_spec inp w i.toNat hjlt 0 (by omega) 0
      rw [hival] at h0
      rw [h0]
      have e1 : (0 : ℚ) + (((inp.take (i.toNat + 1)).reverse).take
          (w - 0).toNat).sum = (window inp i.toNat w.toNat).sum := by
        rw [window, sub_zero, zero_add]
      have e2 : (0 : Int) + min ((i : Int) + 1) (w - 0)
          = ((min (i.toNat + 1) w.toNat : Nat) : Int) := by
        push_cast
        omega
      rw [e1, e2]
    have hwr : writeAt out i ((window inp i.toNat w.toNat).sum
          / ((((min (i.toNat + 1) w.toNat : Nat) : Int)) : ℚ))
        = some (out.set i.toNat ((window inp i.toNat w.toNat).sum
            / ((min (i.toNat + 1) w.toNat : Nat) : ℚ))) := by
      rw [Int.cast_natCast, ← hival]
      exact writeAt_eq (by omega) _
    rw [maOuter_step_run hlt hinner hwr]
    obtain ⟨res, h1, h2, h3, h4⟩ :=
      ih (i + 1) (out.set i.toNat ((window inp i.toNat w.toNat).sum
        / ((min (i.toNat + 1) w.toNat : Nat) : ℚ)))
        (by omega) (by omega) (by rw [List.length_set]; exact hout)
    have hisucc : (i + 1).toNat = i.toNat + 1 := by omega
    refine ⟨res, h1, h2, fun k hk => ?_, fun k hk1 hk2 => ?_⟩
    · rw [h3 k (by omega), List.getElem?_set_ne (by omega)]
    · rcases Nat.lt_or_ge k (i.toNat + 1) with hk3 | hk3
      · have hkeq : k = i.toNat := by omega
        subst hkeq
        rw [h3 i.toNat (by omega), List.getElem?_set_eq_of_lt _ (by omega)]
      · exact h4 k (by omega) hk2

/-- Claim C3: for every valid call, `output[i]` is the arithmetic mean of the
trailing window of the last `min (i+1) windowSize` samples ending at `i`,
with no out-of-bounds access even when `windowSize > dataSize`. -/
theorem C3_movingAverage_trailing_mean (inp outp : List ℚ)
    (dataSize windowSize : Int) (hds : 1 ≤ dataSize) (hw : 1 ≤ windowSize)
    (hin : inp.length = dataSize.toNat) (hout : outp.length = dataSize.toNat) :
    ∃ res, calculateMovingAverage (some inp) (some outp) dataSize windowSize
        = some (some res)
      ∧ res.length = dataSize.toNat
      ∧ ∀ k : Nat, k < dataSize.toNat →
          res[k]? = some ((window inp k windowSize.toNat).sum
            / ((min (k + 1) windowSize.toNat : Nat) : ℚ)) := by
  have hg : ¬ (dataSize ≤ 0 ∨ windowSize ≤ 0) := by omega
  obtain ⟨res, h1, h2, _, h4⟩ := maOuter_spec inp dataSize windowSize hw hin
    (dataSize - 0).toNat 0 outp (le_refl 0) rfl hout
  refine ⟨res, ?_, h2, fun k hk => h4 k (Nat.zero_le k) hk⟩
  simp only [calculateMovingAverage, if_neg hg, h1, Option.map_some']

/-- Witness for C3 at the spec's example `input=[1,2,3,4,5]`, `windowSize=3`:
the claimed output `[1, 1.5, 2, 3, 4]` is computed. -/
theorem C3_movingAverage_trailing_mean_witness :
    (([1, 2, 3, 4, 5] : List ℚ).length = (5 : Int).toNat)
    ∧ (∃ res, calculateMovingAverage (some [1, 2, 3, 4, 5])
          (some [0, 0, 0, 0, 0]) 5 3 = some (some res)
        ∧ res.length = (5 : Int).toNat
        ∧ ∀ k : Nat, k < (5 : Int).toNat →
            res[k]? = some ((window [1, 2, 3, 4, 5] k (3 : Int).toNat).sum
              / ((min (k + 1) (3 : Int).toNat : Nat) : ℚ)))
    ∧ calculateMovingAverage (some [1, 2, 3, 4, 5]) (some [0, 0, 0, 0, 0]) 5 3
        = some (some [1, 3/2, 2, 3, 4]) := by
  refine ⟨by rfl, C3_movingAverage_trailing_mean [1, 2, 3, 4, 5] [0, 0, 0, 0, 0]
    5 3 (by norm_num) (by norm_num) (by rfl) (by rfl), ?_⟩
  simp [calculateMovingAverage, maOuter, maInner, readAt, writeAt]
  norm_num

/-! ## Claims C4 and C9: butterworthLowPassFilter -/

lemma readAt_nonneg {l : List ℚ} {i : Int} (h : 0 ≤ i) :
    readAt l i = l[i.toNat]? := by
  simp [readAt, h]

lemma bwLoop_step_run {inp : List ℚ} {alpha : ℚ} {ds i : Int}
    {out out2 : List ℚ} {v prev : ℚ} (h : i < ds)
    (hv : readAt inp i = some v) (hp : readAt out (i - 1) = some prev)
    (hwr : writeAt out i (alpha * v + (1 - alpha) * prev) = some out2) :
    bwLoop inp alpha ds i out = bwLoop inp alpha ds (i + 1) out2 := by
  rw [bwLoop.eq_def, dif_pos h]
  simp only [hv, hp, hwr]

lemma bwLoop_step_false {inp : List ℚ} {alpha : ℚ} {ds i : Int}
    {out : List ℚ} (h : ¬ i < ds) :
    bwLoop inp alpha ds i out = some out := by
  rw [bwLoop.eq_def, dif_neg h]

lemma getD_eq_get {l : List ℚ} {k : Nat} (hk : k < l.length) :
    l.getD k 0 = l.get ⟨k, hk⟩ := by
  rw [List.getD_eq_getElem?_getD, List.getElem?_eq_getElem hk]
  rfl

lemma readAt_int {l : List ℚ} {i : Int} (h0 : 0 ≤ i)
    (h1 : i.toNat < l.length) :
    readAt l i = some (l.getD i.toNat 0) := by
  rw [readAt_nonneg h0, List.getElem?_eq_getElem h1, getD_eq_get h1]
  rfl

lemma writeAt_int {l : List ℚ} {i : Int} (h0 : 0 ≤ i)
    (h1 : i.toNat < l.length) (v : ℚ) :
    writeAt l i v = some (l.set i.toNat v) := by
  simp [writeAt, h0, h1]

/-- Characterization of the IIR loop of `butterworthLowPassFilter`: if the
prefix below `i` already holds the recurrence values, the final buffer holds
them everywhere. -/
lemma bwLoop_spec (inp : List ℚ) (alpha : ℚ) (ds : Int)
    (hlen : inp.length = ds.toNat) :
    ∀ (fuel : Nat) (i : Int) (out : List ℚ), 1 ≤ i → (ds - i).toNat = fuel →
      out.length = ds.toNat →
      (∀ k : Nat, k < i.toNat → out[k]? = some (bwSpec alpha inp k)) →
      ∃ res, bwLoop inp alpha ds i out = some res ∧ res.length = ds.toNat ∧
        ∀ k : Nat, k < ds.toNat → res[k]? = some (bwSpec alpha inp k) := by
  intro fuel
  induction fuel with
  | zero =>
    intro i out hi hfuel hout hinv
    rw [bwLoop_step_false (by omega)]
    exact ⟨out, rfl, hout, fun k hk => hinv k (by omega)⟩
  | succ fuel ih =>
    intro i out hi hfuel hout hinv
    have hlt : i < ds := by omega
    have hklt : i.toNat < inp.length := by omega
    have hprevlt : (i - 1).toNat < i.toNat := by omega
    have hv : readAt inp i = some (inp.getD i.toNat 0) :=
      readAt_int (by omega) hklt
    have hp : readAt out (i - 1) = some (bwSpec alpha inp (i - 1).toNat) := by
      rw [readAt_nonneg (by omega)]
      exact hinv (i - 1).toNat hprevlt
    have hnat : i.toNat = (i - 1).toNat + 1 := by omega
    have hval : alpha * inp.getD i.toNat 0
        + (1 - alpha) * bwSpec alpha inp (i - 1).toNat
        = bwSpec alpha inp i.toNat := by
      conv_rhs => rw [hnat]
      rw [bwSpec, ← hnat]
    have hwr : writeAt out i (alpha * inp.getD i.toNat 0
          + (1 - alpha) * bwSpec alpha inp (i - 1).toNat)
        = some (out.set i.toNat (bwSpec alpha inp i.toNat)) := by
      rw [hval]
      exact writeAt_int (by omega) (by omega) _
    rw [bwLoop_step_run hlt hv hp hwr]
    have hinv2 : ∀ k : Nat, k < (i + 1).toNat →
        (out.set i.toNat (bwSpec alpha inp i.toNat))[k]?
          = some (bwSpec alpha inp k) := by
      intro k hk
      rcases Nat.lt_or_ge k i.toNat with hk2 | hk2
      · rw [List.getElem?_set_ne (by omega)]
        exact hinv k hk2
      · have hkeq : k = i.toNat := by omega
        subst hkeq
        rw [List.getElem?_set_eq_of_lt _ (by omega)]
    exact ih (i + 1) (out.set i.toNat (bwSpec alpha inp i.toNat)) (by omega)
      (by omega) (by rw [List.length_set]; exact hout) hinv2

/-- Characterization of `butterworthLowPassFilter` on a valid call: the
result satisfies the exponential recurrence `bwSpec` with
`alpha = dt / (RC + dt)`, `dt = 1/samplingRate`,
`RC = 1/(2 * piApprox * cutoffFrequency)`. -/
lemma butterworth_char (inp outp : List ℚ) (ds : Int) (cf sr : ℚ)
    (hds : 1 ≤ ds) (hcf : 0 < cf) (hsr : 0 < sr)
    (hin : inp.length = ds.toNat) (hout : outp.length = ds.toNat) :
    ∃ res, butterworthLowPassFilter (some inp) (some outp) ds cf sr
        = some (some res)
      ∧ res.length = ds.toNat
      ∧ ∀ k : Nat, k < ds.toNat →
          res[k]? = some
            (bwSpec ((1 / sr) / (1 / (2 * piApprox * cf) + 1 / sr)) inp k) := by
  have hg : ¬ (ds ≤ 0 ∨ cf ≤ 0 ∨ sr ≤ 0) := by
    push_neg
    exact ⟨by omega, hcf, hsr⟩
  have h0 : ((0 : Int)).toNat < inp.length := by omega
  have hv0 : readAt inp 0 = some (inp.getD 0 0) := readAt_int (by norm_num) h0
  have hw0 : writeAt outp 0 (inp.getD 0 0)
      = some (outp.set 0 (inp.getD 0 0)) := writeAt_int (by norm_num) (by omega) _
  have hinv1 : ∀ k : Nat, k < ((1 : Int)).toNat →
      (outp.set 0 (inp.getD 0 0))[k]?
        = some (bwSpec ((1 / sr) / (1 / (2 * piApprox * cf) + 1 / sr)) inp k) := by
    intro k hk
    have hkeq : k = 0 := by omega
    subst hkeq
    rw [List.getElem?_set_eq_of_lt _ (by omega), bwSpec]
  obtain ⟨res, h1, h2, h3⟩ := bwLoop_spec inp
    ((1 / sr) / (1 / (2 * piApprox * cf) + 1 / sr)) ds hin (ds - 1).toNat 1
    (outp.set 0 (inp.getD 0 0)) (by norm_num) rfl
    (by rw [List.length_set]; exact hout) hinv1
  refine ⟨res, ?_, h2, h3⟩
  simp only [butterworthLowPassFilter, if_neg hg]
  simp only [hv0, hw0, h1, Option.map_some']

/-- Claim C4: for every valid call, `output[0] = input[0]` and for `i ≥ 1`
`output[i] = alpha * input[i] + (1 - alpha) * output[i-1]` with
`alpha = dt / (RC + dt)`, `dt = 1 / samplingRate`,
`RC = 1 / (2 * piApprox * cutoffFrequency)`, where `piApprox` is the
source's π constant `3.14159265358979323846`. -/
theorem C4_butterworth_recurrence (inp outp : List ℚ) (dataSize : Int)
    (cutoffFrequency samplingRate : ℚ) (hds : 1 ≤ dataSize)
    (hcf : 0 < cutoffFrequency) (hsr : 0 < samplingRate)
    (hin : inp.length = dataSize.toNat) (hout : outp.length = dataSize.toNat) :
    ∃ res, butterworthLowPassFilter (some inp) (some outp) dataSize
        cutoffFrequency samplingRate = some (some res)
      ∧ res.length = dataSize.toNat
      ∧ res[0]? = some (inp.getD 0 0)
      ∧ ∀ k : Nat, 1 ≤ k → k < dataSize.toNat →
          res[k]? = some
            (((1 / samplingRate)
                / (1 / (2 * piApprox * cutoffFrequency) + 1 / samplingRate))
              * inp.getD k 0
            + (1 - ((1 / samplingRate)
                / (1 / (2 * piApprox * cutoffFrequency) + 1 / samplingRate)))
              * res.getD (k - 1) 0) := by
  obtain ⟨res, h1, h2, h3⟩ := butterworth_char inp outp dataSize
    cutoffFrequency samplingRate hds hcf hsr hin hout
  refine ⟨res, h1, h2, ?_, ?_⟩
  · rw [h3 0 (by omega)]
    rfl
  · intro k hk1 hk2
    have hkeq : k = (k - 1) + 1 := by omega
    have hprev : res.getD (k - 1) 0
        = bwSpec ((1 / samplingRate)
            / (1 / (2 * piApprox * cutoffFrequency) + 1 / samplingRate))
            inp (k - 1) := by
      rw [List.getD_eq_getElem?_getD, h3 (k - 1) (by omega)]
      rfl
    rw [h3 k hk2, hprev]
    conv_lhs => rw [hkeq]
    rw [bwSpec]
    rw [← hkeq]

/-- Witness for C4 at `input = [0, 1]`, `cutoff = 5`, `rate = 50`. -/
theorem C4_butterworth_recurrence_witness :
    ∃ res, butterworthLowPassFilter (some [0, 1]) (some [9, 9]) 2 5 50
        = some (some res)
      ∧ res.length = (2 : Int).toNat
      ∧ res[0]? = some (([0, 1] : List ℚ).getD 0 0)
      ∧ ∀ k : Nat, 1 ≤ k → k < (2 : Int).toNat →
          res[k]? = some
            (((1 / 50) / (1 / (2 * piApprox * 5) + 1 / 50))
              * ([0, 1] : List ℚ).getD k 0
            + (1 - ((1 / 50) / (1 / (2 * piApprox * 5) + 1 / 50)))
              * res.getD (k - 1) 0) :=
  C4_butterworth_recurrence [0, 1] [9, 9] 2 5 50 (by norm_num) (by norm_num)
    (by norm_num) (by rfl) (by rfl)

section BwMono

variable {alpha c : ℚ} {inp : List ℚ} {n : Nat}

lemma bwSpec_le_const (h0 : 0 ≤ alpha) (h1 : alpha ≤ 1)
    (hconst : ∀ k : Nat, 1 ≤ k → k < n → inp.getD k 0 = c)
    (hx0 : inp.getD 0 0 ≤ c) :
    ∀ k, k < n → bwSpec alpha inp k ≤ c := by
  intro k
  induction k with
  | zero =>
    intro _
    rw [bwSpec]
    exact hx0
  | succ m ihm =>
    intro hk
    rw [bwSpec, hconst (m + 1) (by omega) hk]
    have hb := ihm (by omega)
    nlinarith

lemma bwSpec_step_le (h0 : 0 ≤ alpha) (h1 : alpha ≤ 1)
    (hconst : ∀ k : Nat, 1 ≤ k → k < n → inp.getD k 0 = c)
    (hx0 : inp.getD 0 0 ≤ c) :
    ∀ k, k + 1 < n → bwSpec alpha inp k ≤ bwSpec alpha inp (k + 1) := by
  intro k hk
  have hb := bwSpec_le_const h0 h1 hconst hx0 k (by omega)
  rw [bwSpec, hconst (k + 1) (by omega) hk]
  nlinarith

lemma bwSpec_mono (h0 : 0 ≤ alpha) (h1 : alpha ≤ 1)
    (hconst : ∀ k : Nat, 1 ≤ k → k < n → inp.getD k 0 = c)
    (hx0 : inp.getD 0 0 ≤ c) :
    ∀ i j : Nat, i ≤ j → j < n → bwSpec alpha inp i ≤ bwSpec alpha inp j := by
  intro i j
  induction j with
  | zero =>
    intro hij _
    have hi0 : i = 0 := by omega
    subst hi0
    exact le_refl _
  | succ m ihm =>
    intro hij hjn
    rcases Nat.eq_or_lt_of_le hij with he | hl
    · rw [he]
    · exact le_trans (ihm (by omega) (by omega))
        (bwSpec_step_le h0 h1 hconst hx0 m hjn)

lemma const_le_bwSpec (h0 : 0 ≤ alpha) (h1 : alpha ≤ 1)
    (hconst : ∀ k : Nat, 1 ≤ k → k < n → inp.getD k 0 = c)
    (hx0 : c ≤ inp.getD 0 0) :
    ∀ k, k < n → c ≤ bwSpec alpha inp k := by
  intro k
  induction k with
  | zero =>
    intro _
    rw [bwSpec]
    exact hx0
  | succ m ihm =>
    intro hk
    rw [bwSpec, hconst (m + 1) (by omega) hk]
    have hb := ihm (by omega)
    nlinarith

lemma bwSpec_step_ge (h0 : 0 ≤ alpha) (h1 : alpha ≤ 1)
    (hconst : ∀ k : Nat, 1 ≤ k → k < n → inp.getD k 0 = c)
    (hx0 : c ≤ inp.getD 0 0) :
    ∀ k, k + 1 < n → bwSpec alpha inp (k + 1) ≤ bwSpec alpha inp k := by
  intro k hk
  have hb := const_le_bwSpec h0 h1 hconst hx0 k (by omega)
  rw [bwSpec, hconst (k + 1) (by omega) hk]
  nlinarith

lemma bwSpec_anti (h0 : 0 ≤ alpha) (h1 : alpha ≤ 1)
    (hconst : ∀ k : Nat, 1 ≤ k → k < n → inp.getD k 0 = c)
    (hx0 : c ≤ inp.getD 0 0) :
    ∀ i j : Nat, i ≤ j → j < n → bwSpec alpha inp j ≤ bwSpec alpha inp i := by
  intro i j
  induction j with
  | zero =>
    intro hij _
    have hi0 : i = 0 := by omega
    subst hi0
    exact le_refl _
  | succ m ihm =>
    intro hij hjn
    rcases Nat.eq_or_lt_of_le hij with he | hl
    · rw [he]
    · exact le_trans (bwSpec_step_ge h0 h1 hconst hx0 m hjn)
        (ihm (by omega) (by omega))

end BwMono

lemma piApprox_pos : (0 : ℚ) < piApprox := by
  norm_num [piApprox]

/-- Claim C9: for a valid call whose input is constant `c` after index 0,
the output sequence converges monotonically toward `c`: if `output[0] ≤ c`
the outputs are non-decreasing and bounded by `c`, and symmetrically when
`output[0] ≥ c` (note `output[0] = input[0]`). -/
theorem C9_butterworth_monotone_step (inp outp : List ℚ) (dataSize : Int)
    (cutoffFrequency samplingRate c : ℚ) (hds : 1 ≤ dataSize)
    (hcf : 0 < cutoffFrequency) (hsr : 0 < samplingRate)
    (hin : inp.length = dataSize.toNat) (hout : outp.length = dataSize.toNat)
    (hconst : ∀ k : Nat, 1 ≤ k → k < dataSize.toNat → inp.getD k 0 = c) :
    ∃ res, butterworthLowPassFilter (some inp) (some outp) dataSize
        cutoffFrequency samplingRate = some (some res)
      ∧ res.getD 0 0 = inp.getD 0 0
      ∧ (inp.getD 0 0 ≤ c → ∀ i j : Nat, i ≤ j → j < dataSize.toNat →
          res.getD i 0 ≤ res.getD j 0 ∧ res.getD j 0 ≤ c)
      ∧ (c ≤ inp.getD 0 0 → ∀ i j : Nat, i ≤ j → j < dataSize.toNat →
          res.getD j 0 ≤ res.getD i 0 ∧ c ≤ res.getD j 0) := by
  obtain ⟨res, h1, h2, h3⟩ := butterworth_char inp outp dataSize
    cutoffFrequency samplingRate hds hcf hsr hin hout
  have hpi := piApprox_pos
  have hd1 : (0 : ℚ) < 1 / samplingRate := by positivity
  have hd2 : (0 : ℚ) < 1 / (2 * piApprox * cutoffFrequency) := by positivity
  have halpha0 : 0 ≤ (1 / samplingRate)
      / (1 / (2 * piApprox * cutoffFrequency) + 1 / samplingRate) := by
    positivity
  have halpha1 : (1 / samplingRate)
      / (1 / (2 * piApprox * cutoffFrequency) + 1 / samplingRate) ≤ 1 := by
    rw [div_le_one (by positivity)]
    linarith
  have hres : ∀ k : Nat, k < dataSize.toNat → res.getD k 0
      = bwSpec ((1 / samplingRate)
          / (1 / (2 * piApprox * cutoffFrequency) + 1 / samplingRate)) inp k := by
    intro k hk
    rw [List.getD_eq_getElem?_getD, h3 k hk]
    rfl
  refine ⟨res, h1, ?_, fun hx0 i j hij hjn => ?_, fun hx0 i j hij hjn => ?_⟩
  · rw [hres 0 (by omega), bwSpec]
  · rw [hres i (by omega), hres j hjn]
    exact ⟨bwSpec_mono halpha0 halpha1 hconst hx0 i j hij hjn,
      bwSpec_le_const halpha0 halpha1 hconst hx0 j hjn⟩
  · rw [hres i (by omega), hres j hjn]
    exact ⟨bwSpec_anti halpha0 halpha1 hconst hx0 i j hij hjn,
      const_le_bwSpec halpha0 halpha1 hconst hx0 j hjn⟩

/-- Witness for C9 at the step input `[0, 1, 1, 1]`, `cutoff = 5`,
`rate = 50`, constant `c = 1`. -/
theorem C9_butterworth_monotone_step_witness :
    ∃ res, butterworthLowPassFilter (some [0, 1, 1, 1]) (some [9, 9, 9, 9])
        4 5 50 = some (some res)
      ∧ res.getD 0 0 = ([0, 1, 1, 1] : List ℚ).getD 0 0
      ∧ (([0, 1, 1, 1] : List ℚ).getD 0 0 ≤ 1 →
          ∀ i j : Nat, i ≤ j → j < (4 : Int).toNat →
            res.getD i 0 ≤ res.getD j 0 ∧ res.getD j 0 ≤ 1)
      ∧ ((1 : ℚ) ≤ ([0, 1, 1, 1] : List ℚ).getD 0 0 →
          ∀ i j : Nat, i ≤ j → j < (4 : Int).toNat →
            res.getD j 0 ≤ res.getD i 0 ∧ (1 : ℚ) ≤ res.getD j 0) :=
  C9_butterworth_monotone_step [0, 1, 1, 1] [9, 9, 9, 9] 4 5 50 1
    (by norm_num) (by norm_num) (by norm_num) (by rfl) (by rfl)
    (by
      intro k h1 h2
      have h3 : k < 4 := by omega
      interval_cases k <;> rfl)

/-! ## Claims C5 and C6: detectMovement -/

lemma dmInit_step_run {ds i : Int} {out out2 : List ℚ} (h : i < ds)
    (hwr : writeAt out i 0 = some out2) :
    dmInit ds i out = dmInit ds (i + 1) out2 := by
  rw [dmInit.eq_def, dif_pos h]
  simp only [hwr]

lemma dmInit_step_false {ds i : Int} {out : List ℚ} (h : ¬ i < ds) :
    dmInit ds i out = some out := by
  rw [dmInit.eq_def, dif_neg h]

lemma dmInit_spec (ds : Int) :
    ∀ (fuel : Nat) (i : Int) (out : List ℚ), 0 ≤ i → (ds - i).toNat = fuel →
      out.length = ds.toNat →
      ∃ res, dmInit ds i out = some res ∧ res.length = ds.toNat ∧
        ∀ k : Nat, k < ds.toNat →
          res[k]? = if i.toNat ≤ k then some 0 else out[k]? := by
  intro fuel
  induction fuel with
  | zero =>
    intro i out hi hfuel hout
    rw [dmInit_step_false (by omega)]
    refine ⟨out, rfl, hout, fun k hk => ?_⟩
    rw [if_neg (by omega)]
  | succ fuel ih =>
    intro i out hi hfuel hout
    have hlt : i < ds := by omega
    have hwr : writeAt out i 0 = some (out.set i.toNat 0) :=
      writeAt_int (by omega) (by omega) 0
    rw [dmInit_step_run hlt hwr]
    obtain ⟨res, h1, h2, h3⟩ := ih (i + 1) (out.set i.toNat 0) (by omega)
      (by omega) (by rw [List.length_set]; exact hout)
    refine ⟨res, h1, h2, fun k hk => ?_⟩
    rw [h3 k hk]
    rcases Nat.lt_or_ge k i.toNat with hk2 | hk2
    · rw [if_neg (by omega), if_neg (by omega), List.getElem?_set_ne (by omega)]
    · rcases Nat.eq_or_lt_of_le hk2 with he | hl
      · rw [if_neg (by omega), if_pos (by omega), ← he,
          List.getElem?_set_eq_of_lt _ (by omega)]
      · rw [if_pos (by omega), if_pos (by omega)]

lemma dmAccel_step_run {inp : List ℚ} {dt2 : ℚ} {ds i : Int}
    {out out2 : List ℚ} {a b cv : ℚ} (h : i < ds - 1)
    (ha : readAt inp (i + 1) = some a) (hb : readAt inp i = some b)
    (hc : readAt inp (i - 1) = some cv)
    (hwr : writeAt out i (|(a - 2 * b + cv) / dt2|) = some out2) :
    dmAccel inp dt2 ds i out = dmAccel inp dt2 ds (i + 1) out2 := by
  rw [dmAccel.eq_def, dif_pos h]
  simp only [ha, hb, hc, hwr]

lemma dmAccel_step_false {inp : List ℚ} {dt2 : ℚ} {ds i : Int}
    {out : List ℚ} (h : ¬ i < ds - 1) :
    dmAccel inp dt2 ds i out = some out := by
  rw [dmAccel.eq_def, dif_neg h]

lemma dmAccel_spec (inp : List ℚ) (dt2 : ℚ) (ds : Int)
    (hin : inp.length = ds.toNat) :
    ∀ (fuel : Nat) (i : Int) (out : List ℚ), 1 ≤ i →
      (ds - 1 - i).toNat = fuel → out.length = ds.toNat →
      ∃ res, dmAccel inp dt2 ds i out = some res ∧ res.length = ds.toNat ∧
        ∀ k : Nat, k < ds.toNat →
          res[k]? = if i.toNat ≤ k ∧ k + 1 < ds.toNat then
              some (|(inp.getD (k + 1) 0 - 2 * inp.getD k 0
                + inp.getD (k - 1) 0) / dt2|)
            else out[k]? := by
  intro fuel
  induction fuel with
  | zero =>
    intro i out hi hfuel hout
    rw [dmAccel_step_false (by omega)]
    refine ⟨out, rfl, hout, fun k hk => ?_⟩
    rw [if_neg (by omega)]
  | succ fuel ih =>
    intro i out hi hfuel hout
    have hlt : i < ds - 1 := by omega
    have ha : readAt inp (i + 1) = some (inp.getD (i.toNat + 1) 0) := by
      have := readAt_int (l := inp) (i := i + 1) (by omega) (by omega)
      rwa [show (i + 1).toNat = i.toNat + 1 from by omega] at this
    have hb : readAt inp i = some (inp.getD i.toNat 0) :=
      readAt_int (by omega) (by omega)
    have hc : readAt inp (i - 1) = some (inp.getD (i.toNat - 1) 0) := by
      have := readAt_int (l := inp) (i := i - 1) (by omega) (by omega)
      rwa [show (i - 1).toNat = i.toNat - 1 from by omega] at this
    have hwr : writeAt out i (|(inp.getD (i.toNat + 1) 0
          - 2 * inp.getD i.toNat 0 + inp.getD (i.toNat - 1) 0) / dt2|)
        = some (out.set i.toNat (|(inp.getD (i.toNat + 1) 0
          - 2 * inp.getD i.toNat 0 + inp.getD (i.toNat - 1) 0) / dt2|)) :=
      writeAt_int (by omega) (by omega) _
    rw [dmAccel_step_run hlt ha hb hc hwr]
    obtain ⟨res, h1, h2, h3⟩ := ih (i + 1)
      (out.set i.toNat (|(inp.getD (i.toNat + 1) 0 - 2 * inp.getD i.toNat 0
        + inp.getD (i.toNat - 1) 0) / dt2|)) (by omega) (by omega)
      (by rw [List.length_set]; exact hout)
    refine ⟨res, h1, h2, fun k hk => ?_⟩
    rw [h3 k hk]
    rcases Nat.lt_or_ge k i.toNat with hk2 | hk2
    · rw [if_neg (by omega), if_neg (by omega), List.getElem?_set_ne (by omega)]
    · rcases Nat.eq_or_lt_of_le hk2 with he | hl
      · rw [if_neg (by omega), if_pos (by omega), ← he,
          List.getElem?_set_eq_of_lt _ (by omega)]
      · by_cases hk3 : k + 1 < ds.toNat
        · rw [if_pos (by omega), if_pos (by omega)]
        · rw [if_neg (by omega), if_neg (by omega),
            List.getElem?_set_ne (by omega)]

lemma dmThresh_step_run {t : ℚ} {ds i : Int} {out out2 : List ℚ} {v : ℚ}
    (h : i < ds) (hv : readAt out i = some v)
    (hwr : writeAt out i (if v > t then 1 else 0) = some out2) :
    dmThresh t ds i out = dmThresh t ds (i + 1) out2 := by
  rw [dmThresh.eq_def, dif_pos h]
  simp only [hv, hwr]

lemma dmThresh_step_false {t : ℚ} {ds i : Int} {out : List ℚ}
    (h : ¬ i < ds) :
    dmThresh t ds i out = some out := by
  rw [dmThresh.eq_def, dif_neg h]

lemma getD_set_ne {l : List ℚ} {i k : Nat} (h : i ≠ k) (v : ℚ) :
    (l.set i v).getD k 0 = l.getD k 0 := by
  rw [List.getD_eq_getElem?_getD, List.getElem?_set_ne h,
    ← List.getD_eq_getElem?_getD]

lemma dmThresh_spec (t : ℚ) (ds : Int) :
    ∀ (fuel : Nat) (i : Int) (out : List ℚ), 0 ≤ i → (ds - i).toNat = fuel →
      out.length = ds.toNat →
      ∃ res, dmThresh t ds i out = some res ∧ res.length = ds.toNat ∧
        ∀ k : Nat, k < ds.toNat →
          res[k]? = if i.toNat ≤ k then
              some (if out.getD k 0 > t then 1 else 0)
            else out[k]? := by
  intro fuel
  induction fuel with
  | zero =>
    intro i out hi hfuel hout
    rw [dmThresh_step_false (by omega)]
    refine ⟨out, rfl, hout, fun k hk => ?_⟩
    rw [if_neg (by omega)]
  | succ fuel ih =>
    intro i out hi hfuel hout
    have hlt : i < ds := by omega
    have hv : readAt out i = some (out.getD i.toNat 0) :=
      readAt_int (by omega) (by omega)
    have hwr : writeAt out i (if out.getD i.toNat 0 > t then 1 else 0)
        = some (out.set i.toNat (if out.getD i.toNat 0 > t then 1 else 0)) :=
      writeAt_int (by omega) (by omega) _
    rw [dmThresh_step_run hlt hv hwr]
    obtain ⟨res, h1, h2, h3⟩ := ih (i + 1)
      (out.set i.toNat (if out.getD i.toNat 0 > t then 1 else 0))
      (by omega) (by omega) (by rw [List.length_set]; exact hout)
    refine ⟨res, h1, h2, fun k hk => ?_⟩
    rw [h3 k hk]
    rcases Nat.lt_or_ge k i.toNat with hk2 | hk2
    · rw [if_neg (show ¬ (i + 1).toNat ≤ k from by omega),
        List.getElem?_set_ne (show i.toNat ≠ k from by omega),
        if_neg (show ¬ i.toNat ≤ k from by omega)]
    · rcases Nat.eq_or_lt_of_le hk2 with he | hl
      · rw [if_neg (show ¬ (i + 1).toNat ≤ k from by omega), ← he,
          List.getElem?_set_eq_of_lt _ (show i.toNat < out.length from by omega),
          if_pos (le_refl i.toNat)]
      · rw [if_pos (show (i + 1).toNat ≤ k from by omega),
          getD_set_ne (show i.toNat ≠ k from by omega),
          if_pos (show i.toNat ≤ k from by omega)]

/-- Characterization of `detectMovement` on a valid call: every index holds
the thresholded absolute second difference (`0` at the two boundaries before
thresholding). -/
lemma detectMovement_char (inp outp : List ℚ) (ds : Int) (t sr : ℚ)
    (hds : 3 ≤ ds) (hsr : 0 < sr)
    (hin : inp.length = ds.toNat) (hout : outp.length = ds.toNat) :
    ∃ res, detectMovement (some inp) (some outp) ds t sr = some (some res)
      ∧ res.length = ds.toNat
      ∧ ∀ k : Nat, k < ds.toNat →
          res[k]? = some (if dmMid inp ((1 / sr) * (1 / sr)) ds.toNat k > t
            then 1 else 0) := by
  have hg : ¬ (ds < 3 ∨ sr ≤ 0) := by
    push_neg
    exact ⟨by omega, hsr⟩
  obtain ⟨res1, hi1, hi2, hi3⟩ := dmInit_spec ds (ds - 0).toNat 0 outp
    (by norm_num) rfl hout
  obtain ⟨res2, ha1, ha2, ha3⟩ := dmAccel_spec inp ((1 / sr) * (1 / sr)) ds hin
    (ds - 1 - 1).toNat 1 res1 (by norm_num) rfl hi2
  obtain ⟨res, ht1, ht2, ht3⟩ := dmThresh_spec t ds (ds - 0).toNat 0 res2
    (by norm_num) rfl ha2
  have hres2 : ∀ k : Nat, k < ds.toNat →
      res2[k]? = some (dmMid inp ((1 / sr) * (1 / sr)) ds.toNat k) := by
    intro k hk
    rw [ha3 k hk, dmMid]
    by_cases hcond : 1 ≤ k ∧ k + 1 < ds.toNat
    · rw [if_pos (by omega), if_pos hcond]
    · rw [if_neg (by omega), if_neg hcond, hi3 k hk, if_pos (by omega)]
  refine ⟨res, ?_, ht2, fun k hk => ?_⟩
  · simp only [detectMovement, if_neg hg]
    simp only [hi1, ha1, ht1, Option.map_some']
  · rw [ht3 k hk, if_pos (by omega)]
    have : res2.getD k 0 = dmMid inp ((1 / sr) * (1 / sr)) ds.toNat k := by
      rw [List.getD_eq_getElem?_getD, hres2 k hk]
      rfl
    rw [this]

/-- Counterexample to claim C5's example: on `input = [0,0,10,0,0]`,
`samplingRate = 1`, `threshold = 5`, the code yields `[0,1,1,1,0]` (the
second difference at indices 1 and 3 is `10`, which also exceeds 5), not the
claimed `[0,0,1,0,0]`. -/
theorem C5_example_counterexample :
    detectMovement (some [0, 0, 10, 0, 0]) (some [7, 7, 7, 7, 7]) 5 5 1
      = some (some [0, 1, 1, 1, 0])
    ∧ detectMovement (some [0, 0, 10, 0, 0]) (some [7, 7, 7, 7, 7]) 5 5 1
      ≠ some (some [0, 0, 1, 0, 0]) := by
  have hcomp : detectMovement (some [0, 0, 10, 0, 0]) (some [7, 7, 7, 7, 7])
      5 5 1 = some (some [0, 1, 1, 1, 0]) := by
    simp [detectMovement, dmInit, dmAccel, dmThresh, readAt, writeAt]
    norm_num [lt_abs]
  refine ⟨hcomp, ?_⟩
  rw [hcomp]
  intro h
  norm_num at h

/-- Claim C5 (amended): for every valid `detectMovement` call and every
interior index `1 ≤ k ≤ dataSize - 2`,
`output[k] = 1` iff `|(input[k+1] - 2*input[k] + input[k-1]) / dt²| >
threshold` (else `0`); the spec's example `[0,0,10,0,0]` however yields
`[0,1,1,1,0]`, not `[0,0,1,0,0]`. -/
theorem C5_detect_interior (inp outp : List ℚ) (dataSize : Int)
    (threshold samplingRate : ℚ) (hds : 3 ≤ dataSize) (ht : 0 < threshold)
    (hsr : 0 < samplingRate) (hin : inp.length = dataSize.toNat)
    (hout : outp.length = dataSize.toNat) :
    ∃ res, detectMovement (some inp) (some outp) dataSize threshold
        samplingRate = some (some res)
      ∧ res.length = dataSize.toNat
      ∧ ∀ k : Nat, 1 ≤ k → k + 1 < dataSize.toNat →
          res[k]? = some (if |(inp.getD (k + 1) 0 - 2 * inp.getD k 0
              + inp.getD (k - 1) 0)
              / ((1 / samplingRate) * (1 / samplingRate))| > threshold
            then 1 else 0) := by
  obtain ⟨res, h1, h2, h3⟩ := detectMovement_char inp outp dataSize threshold
    samplingRate hds hsr hin hout
  refine ⟨res, h1, h2, fun k hk1 hk2 => ?_⟩
  have hmid : dmMid inp ((1 / samplingRate) * (1 / samplingRate))
      dataSize.toNat k = |(inp.getD (k + 1) 0 - 2 * inp.getD k 0
        + inp.getD (k - 1) 0) / ((1 / samplingRate) * (1 / samplingRate))| := by
    simp only [dmMid]
    rw [if_pos ⟨hk1, hk2⟩]
  rw [h3 k (by omega), hmid]

/-- Witness for (amended) C5 at the corrected example. -/
theorem C5_detect_interior_witness :
    ∃ res, detectMovement (some [0, 0, 10, 0, 0]) (some [7, 7, 7, 7, 7]) 5 5 1
        = some (some res)
      ∧ res.length = (5 : Int).toNat
      ∧ ∀ k : Nat, 1 ≤ k → k + 1 < (5 : Int).toNat →
          res[k]? = some (if |(([0, 0, 10, 0, 0] : List ℚ).getD (k + 1) 0
              - 2 * ([0, 0, 10, 0, 0] : List ℚ).getD k 0
              + ([0, 0, 10, 0, 0] : List ℚ).getD (k - 1) 0)
              / ((1 / 1) * (1 / 1))| > 5
            then 1 else 0) :=
  C5_detect_interior [0, 0, 10, 0, 0] [7, 7, 7, 7, 7] 5 5 1 (by norm_num)
    (by norm_num) (by norm_num) (by rfl) (by rfl)

/-- Counterexample to claim C6: with a negative threshold the zero-initialized
boundary cells satisfy `0.0 > threshold` in the uniform thresholding pass, so
`output[0] = 1.0`, not `0.0`. -/
theorem C6_boundary_counterexample :
    detectMovement (some [0, 0, 0]) (some [9, 9, 9]) 3 (-1) 1
      = some (some [1, 1, 1])
    ∧ ([1, 1, 1] : List ℚ)[0]? ≠ some 0 := by
  constructor
  · simp [detectMovement, dmInit, dmAccel, dmThresh, readAt, writeAt]
  · intro h
    norm_num at h

/-- Claim C6 (amended): for every valid `detectMovement` call with
`threshold ≥ 0`, `output[0] = 0` and `output[dataSize-1] = 0`. -/
theorem C6_boundaries_zero (inp outp : List ℚ) (dataSize : Int)
    (threshold samplingRate : ℚ) (hds : 3 ≤ dataSize) (ht : 0 ≤ threshold)
    (hsr : 0 < samplingRate) (hin : inp.length = dataSize.toNat)
    (hout : outp.length = dataSize.toNat) :
    ∃ res, detectMovement (some inp) (some outp) dataSize threshold
        samplingRate = some (some res)
      ∧ res[0]? = some 0
      ∧ res[dataSize.toNat - 1]? = some 0 := by
  obtain ⟨res, h1, h2, h3⟩ := detectMovement_char inp outp dataSize threshold
    samplingRate hds hsr hin hout
  have hn : 3 ≤ dataSize.toNat := by omega
  have hmid0 : dmMid inp ((1 / samplingRate) * (1 / samplingRate))
      dataSize.toNat 0 = 0 := by
    simp only [dmMid]
    rw [if_neg (by omega)]
  have hmidl : dmMid inp ((1 / samplingRate) * (1 / samplingRate))
      dataSize.toNat (dataSize.toNat - 1) = 0 := by
    simp only [dmMid]
    rw [if_neg (by omega)]
  refine ⟨res, h1, ?_, ?_⟩
  · rw [h3 0 (by omega), hmid0, if_neg (not_lt.mpr ht)]
  · rw [h3 (dataSize.toNat - 1) (by omega), hmidl, if_neg (not_lt.mpr ht)]

/-- Witness for (amended) C6. -/
theorem C6_boundaries_zero_witness :
    ∃ res, detectMovement (some [0, 0, 0]) (some [9, 9, 9]) 3 0 1
        = some (some res)
      ∧ res[0]? = some 0
      ∧ res[(3 : Int).toNat - 1]? = some 0 :=
  C6_boundaries_zero [0, 0, 0] [9, 9, 9] 3 0 1 (by norm_num) (by norm_num)
    (by norm_num) (by rfl) (by rfl)

/-! ## Claims C1, C2, C10: applyZupt -/

lemma getElem?_append_mid (l1 l2 : List ℚ) (a : ℚ) :
    (l1 ++ a :: l2)[l1.length]? = some a := by
  rw [List.getElem?_append_right (le_refl l1.length), Nat.sub_self]
  exact List.getElem?_cons_zero

lemma set_append_mid (l1 l2 : List ℚ) (a b : ℚ) :
    (l1 ++ a :: l2).set l1.length b = l1 ++ b :: l2 := by
  rw [List.set_append, if_neg (lt_irrefl l1.length), Nat.sub_self]
  rfl

set_option maxHeartbeats 1000000 in
lemma zuptLoop_step_false {acc : List ℚ} {t : ℚ} {cct ds i cc : Int}
    {vel : List ℚ} (h : ¬ i < ds) :
    zuptLoop acc t cct ds i cc vel = some (0, vel) := by
  rw [zuptLoop.eq_def, dif_neg h]

lemma zuptLoop_step_below_exit {acc : List ℚ} {t : ℚ} {cct ds i cc : Int}
    {vel vel2 : List ℚ} {a : ℚ} (h : i < ds) (ha : readAt acc i = some a)
    (habs : |a| < t) (hwr : writeAt vel i 0 = some vel2)
    (hcc : cc + 1 ≥ cct) :
    zuptLoop acc t cct ds i cc vel = some (1, vel2) := by
  rw [zuptLoop.eq_def, dif_pos h]
  simp only [ha]
  rw [if_pos habs]
  simp only [hwr]
  rw [if_pos hcc]

lemma zuptLoop_step_below_cont {acc : List ℚ} {t : ℚ} {cct ds i cc : Int}
    {vel vel2 : List ℚ} {a : ℚ} (h : i < ds) (ha : readAt acc i = some a)
    (habs : |a| < t) (hwr : writeAt vel i 0 = some vel2)
    (hcc : ¬ cc + 1 ≥ cct) :
    zuptLoop acc t cct ds i cc vel
      = zuptLoop acc t cct ds (i + 1) (cc + 1) vel2 := by
  rw [zuptLoop.eq_def, dif_pos h]
  simp only [ha]
  rw [if_pos habs]
  simp only [hwr]
  rw [if_neg hcc]

lemma zuptLoop_step_above {acc : List ℚ} {t : ℚ} {cct ds i cc : Int}
    {vel : List ℚ} {a : ℚ} (h : i < ds) (ha : readAt acc i = some a)
    (habs : ¬ |a| < t) :
    zuptLoop acc t cct ds i cc vel = zuptLoop acc t cct ds (i + 1) 0 vel := by
  rw [zuptLoop.eq_def, dif_pos h]
  simp only [ha]
  rw [if_neg habs]

/-- The loop of `applyZupt`, started at the boundary between a processed
prefix and an unprocessed suffix, computes `zuptScan` on the suffix and
leaves the prefix untouched. -/
lemma zuptLoop_eq_scan (t : ℚ) (cct : Int) :
    ∀ (accS velS accP velP : List ℚ), velS.length = accS.length →
      velP.length = accP.length → ∀ cc : Int,
      zuptLoop (accP ++ accS) t cct (((accP ++ accS).length : Nat) : Int)
          ((accP.length : Nat) : Int) cc (velP ++ velS)
        = some ((zuptScan t cct cc accS velS).1,
            velP ++ (zuptScan t cct cc accS velS).2) := by
  intro accS
  induction accS with
  | nil =>
    intro velS accP velP hS hP cc
    have hS0 : velS = [] := List.eq_nil_of_length_eq_zero hS
    subst hS0
    rw [zuptLoop_step_false (by simp)]
    simp [zuptScan]
  | cons a as ih =>
    intro velS accP velP hS hP cc
    cases velS with
    | nil => simp at hS
    | cons v vs =>
      have hSl : vs.length = as.length := by simpa using hS
      have hlt : ((accP.length : Nat) : Int)
          < (((accP ++ a :: as).length : Nat) : Int) := by
        push_cast [List.length_append, List.length_cons]
        omega
      have ha : readAt (accP ++ a :: as) ((accP.length : Nat) : Int)
          = some a := by
        rw [readAt_nonneg (by positivity), Int.toNat_natCast]
        exact getElem?_append_mid accP as a
      by_cases habs : |a| < t
      · have hwr : writeAt (velP ++ v :: vs) ((accP.length : Nat) : Int) 0
            = some (velP ++ 0 :: vs) := by
          rw [← hP]
          have hw := writeAt_int (l := velP ++ v :: vs)
            (i := ((velP.length : Nat) : Int)) (by positivity)
            (by rw [Int.toNat_natCast]; simp) 0
          rw [Int.toNat_natCast, set_append_mid] at hw
          exact hw
        by_cases hcc : cc + 1 ≥ cct
        · rw [zuptLoop_step_below_exit hlt ha habs hwr hcc]
          simp only [zuptScan]
          rw [if_pos habs, if_pos hcc]
        · rw [zuptLoop_step_below_cont hlt ha habs hwr hcc]
          have e1 : accP ++ a :: as = (accP ++ [a]) ++ as := by simp
          have e2 : velP ++ 0 :: vs = (velP ++ [0]) ++ ([] : List ℚ) ++ vs := by
            simp
          have e3 : ((accP.length : Nat) : Int) + 1
              = (((accP ++ [a]).length : Nat) : Int) := by
            push_cast [List.length_append, List.length_singleton]
            ring
          rw [show velP ++ 0 :: vs = (velP ++ [0]) ++ vs from by simp, e3]
          conv_lhs => rw [e1]
          rw [ih vs (accP ++ [a]) (velP ++ [0]) hSl (by simp [hP]) (cc + 1)]
          simp only [zuptScan]
          rw [if_pos habs, if_neg hcc]
          simp
      · rw [zuptLoop_step_above hlt ha habs]
        have e3 : ((accP.length : Nat) : Int) + 1
            = (((accP ++ [a]).length : Nat) : Int) := by
          push_cast [List.length_append, List.length_singleton]
          ring
        rw [show velP ++ v :: vs = (velP ++ [v]) ++ vs from by simp, e3]
        conv_lhs => rw [show accP ++ a :: as = (accP ++ [a]) ++ as from by simp]
        rw [ih vs (accP ++ [a]) (velP ++ [v]) hSl (by simp [hP]) 0]
        simp only [zuptScan]
        rw [if_neg habs]
        simp

/-- `applyZupt` on a valid call is `zuptScan` over the whole buffers. -/
lemma applyZupt_valid (vel acc : List ℚ) (ds cct : Int) (t : ℚ)
    (hds : 0 < ds) (ha : acc.length = ds.toNat) (hv : vel.length = ds.toNat) :
    applyZupt (some vel) (some acc) ds t cct
      = some ((zuptScan t cct 0 acc vel).1,
          some ((zuptScan t cct 0 acc vel).2)) := by
  simp only [applyZupt, if_neg (show ¬ ds ≤ 0 from by omega)]
  have hbridge := zuptLoop_eq_scan t cct acc vel [] [] (by omega) rfl 0
  simp only [List.nil_append, List.length_nil, Nat.cast_zero] at hbridge
  have hds2 : ((acc.length : Nat) : Int) = ds := by omega
  rw [hds2] at hbridge
  rw [hbridge, Option.map_some']

lemma zuptScan_fst (t : ℚ) (cct : Int) :
    ∀ (accS velS : List ℚ), velS.length = accS.length → ∀ cc : Int,
      (zuptScan t cct cc accS velS).1
        = if runScan t cct cc accS then 1 else 0 := by
  intro accS
  induction accS with
  | nil =>
    intro velS hS cc
    have hS0 : velS = [] := List.eq_nil_of_length_eq_zero hS
    subst hS0
    simp [zuptScan, runScan]
  | cons a as ih =>
    intro velS hS cc
    cases velS with
    | nil => simp at hS
    | cons v vs =>
      have hSl : vs.length = as.length := by simpa using hS
      by_cases habs : |a| < t
      · by_cases hcc : cc + 1 ≥ cct
        · have h1 : (zuptScan t cct cc (a :: as) (v :: vs)).1 = 1 := by
            simp only [zuptScan]
            rw [if_pos habs, if_pos hcc]
          have h2 : runScan t cct cc (a :: as) = true := by
            simp only [runScan]
            rw [if_pos habs, if_pos hcc]
          rw [h1, h2]
          simp
        · have h1 : (zuptScan t cct cc (a :: as) (v :: vs)).1
              = (zuptScan t cct (cc + 1) as vs).1 := by
            simp only [zuptScan]
            rw [if_pos habs, if_neg hcc]
          have h2 : runScan t cct cc (a :: as)
              = runScan t cct (cc + 1) as := by
            simp only [runScan]
            rw [if_pos habs, if_neg hcc]
          rw [h1, h2]
          exact ih vs hSl (cc + 1)
      · have h1 : (zuptScan t cct cc (a :: as) (v :: vs)).1
            = (zuptScan t cct 0 as vs).1 := by
          simp only [zuptScan]
          rw [if_neg habs]
        have h2 : runScan t cct cc (a :: as) = runScan t cct 0 as := by
          simp only [runScan]
          rw [if_neg habs]
        rw [h1, h2]
        exact ih vs hSl 0

lemma runScan_big (t : ℚ) (cct : Int) :
    ∀ (accS : List ℚ) (cc : Int), 0 ≤ cc → cct > cc + accS.length →
      runScan t cct cc accS = false := by
  intro accS
  induction accS with
  | nil => intro cc _ _; rfl
  | cons a as ih =>
    intro cc hcc hbig
    simp only [List.length_cons] at hbig
    simp only [runScan]
    by_cases habs : |a| < t
    · rw [if_pos habs, if_neg (show ¬ cc + 1 ≥ cct from by push_cast at hbig ⊢; omega)]
      exact ih (cc + 1) (by omega) (by push_cast at hbig ⊢; omega)
    · rw [if_neg habs]
      exact ih 0 (by omega) (by push_cast at hbig ⊢; omega)

lemma zuptScan_len (t : ℚ) (cct : Int) :
    ∀ (accS velS : List ℚ), velS.length = accS.length → ∀ cc : Int,
      (zuptScan t cct cc accS velS).2.length = velS.length := by
  intro accS
  induction accS with
  | nil =>
    intro velS hS cc
    have hS0 : velS = [] := List.eq_nil_of_length_eq_zero hS
    subst hS0
    rfl
  | cons a as ih =>
    intro velS hS cc
    cases velS with
    | nil => simp at hS
    | cons v vs =>
      have hSl : vs.length = as.length := by simpa using hS
      simp only [zuptScan]
      by_cases habs : |a| < t
      · rw [if_pos habs]
        by_cases hcc : cc + 1 ≥ cct
        · rw [if_pos hcc]
          simp
        · rw [if_neg hcc]
          simp [ih vs hSl (cc + 1)]
      · rw [if_neg habs]
        simp [ih vs hSl 0]

lemma zuptScan_snd (t : ℚ) (cct : Int) :
    ∀ (accS velS : List ℚ), velS.length = accS.length → ∀ (cc : Int)
      (k : Nat), k < velS.length →
      (zuptScan t cct cc accS velS).2[k]?
        = if k < scanLen t cct cc accS ∧ |accS.getD k 0| < t then some 0
          else velS[k]? := by
  intro accS
  induction accS with
  | nil =>
    intro velS hS cc k hk
    have hS0 : velS = [] := List.eq_nil_of_length_eq_zero hS
    subst hS0
    simp at hk
  | cons a as ih =>
    intro velS hS cc k hk
    cases velS with
    | nil => simp at hS
    | cons v vs =>
      have hSl : vs.length = as.length := by simpa using hS
      by_cases habs : |a| < t
      · by_cases hcc : cc + 1 ≥ cct
        · have h1 : (zuptScan t cct cc (a :: as) (v :: vs)).2 = 0 :: vs := by
            simp only [zuptScan]
            rw [if_pos habs, if_pos hcc]
          have h2 : scanLen t cct cc (a :: as) = 1 := by
            simp only [scanLen]
            rw [if_pos habs, if_pos hcc]
          rw [h1]
          simp only [h2]
          cases k with
          | zero =>
            rw [if_pos ⟨by omega, by simpa using habs⟩]
            exact List.getElem?_cons_zero
          | succ k =>
            rw [if_neg (by omega)]
            simp only [List.getElem?_cons_succ]
        · have h1 : (zuptScan t cct cc (a :: as) (v :: vs)).2
              = 0 :: (zuptScan t cct (cc + 1) as vs).2 := by
            simp only [zuptScan]
            rw [if_pos habs, if_neg hcc]
          have h2 : scanLen t cct cc (a :: as)
              = 1 + scanLen t cct (cc + 1) as := by
            simp only [scanLen]
            rw [if_pos habs, if_neg hcc]
          rw [h1]
          simp only [h2]
          cases k with
          | zero =>
            rw [if_pos ⟨by omega, by simpa using habs⟩]
            exact List.getElem?_cons_zero
          | succ k =>
            have hrec := ih vs hSl (cc + 1) k (by simpa using hk)
            simp only [List.getElem?_cons_succ, List.getD_cons_succ]
            rw [hrec]
            by_cases hcond : k < scanLen t cct (cc + 1) as ∧ |as.getD k 0| < t
            · rw [if_pos hcond, if_pos ⟨by omega, hcond.2⟩]
            · rw [if_neg hcond, if_neg (by
                intro hcon
                exact hcond ⟨by omega, hcon.2⟩)]
      · have h1 : (zuptScan t cct cc (a :: as) (v :: vs)).2
            = v :: (zuptScan t cct 0 as vs).2 := by
          simp only [zuptScan]
          rw [if_neg habs]
        have h2 : scanLen t cct cc (a :: as) = 1 + scanLen t cct 0 as := by
          simp only [scanLen]
          rw [if_neg habs]
        rw [h1]
        simp only [h2]
        cases k with
        | zero =>
          rw [if_neg (by
            intro hcon
            exact habs (by simpa using hcon.2))]
          simp only [List.getElem?_cons_zero]
        | succ k =>
          have hrec := ih vs hSl 0 k (by simpa using hk)
          simp only [List.getElem?_cons_succ, List.getD_cons_succ]
          rw [hrec]
          by_cases hcond : k < scanLen t cct 0 as ∧ |as.getD k 0| < t
          · rw [if_pos hcond, if_pos ⟨by omega, hcond.2⟩]
          · rw [if_neg hcond, if_neg (by
              intro hcon
              exact hcond ⟨by omega, hcon.2⟩)]

lemma zuptScan_none_below (t : ℚ) (cct : Int) :
    ∀ (accS : List ℚ), (∀ x ∈ accS, ¬ |x| < t) → ∀ (velS : List ℚ) (cc : Int),
      zuptScan t cct cc accS velS = (0, velS) := by
  intro accS
  induction accS with
  | nil =>
    intro _ velS cc
    rfl
  | cons a as ih =>
    intro hnone velS cc
    cases velS with
    | nil => rfl
    | cons v vs =>
      simp only [zuptScan]
      rw [if_neg (hnone a (by simp)), ih (fun x hx => hnone x (by simp [hx])) vs 0]

lemma zuptScan_first_below (t : ℚ) (cct : Int) (hcct : cct ≤ 1) :
    ∀ (accS velS : List ℚ) (cc : Int), 0 ≤ cc →
      velS.length = accS.length →
      ∀ (i0 : Nat) (h0 : i0 < accS.length), |accS.get ⟨i0, h0⟩| < t →
      (∀ j : Nat, j < i0 → ¬ |accS.getD j 0| < t) →
      zuptScan t cct cc accS velS = (1, velS.set i0 0) := by
  intro accS
  induction accS with
  | nil =>
    intro velS cc _ _ i0 h0
    simp at h0
  | cons a as ih =>
    intro velS cc hcc hS i0 h0 hbelow hfirst
    cases velS with
    | nil => simp at hS
    | cons v vs =>
      have hSl : vs.length = as.length := by simpa using hS
      cases i0 with
      | zero =>
        have ha : |a| < t := by simpa using hbelow
        simp only [zuptScan]
        rw [if_pos ha, if_pos (show cc + 1 ≥ cct from by omega)]
        rfl
      | succ j =>
        have hnot : ¬ |a| < t := by
          have := hfirst 0 (by omega)
          simpa using this
        simp only [zuptScan]
        rw [if_neg hnot, ih vs 0 (le_refl 0) hSl j (by simpa using h0)
          (by simpa using hbelow)
          (fun j2 hj2 => by simpa using hfirst (j2 + 1) (by omega))]
        rfl

/-- Claim C1: `applyZupt` is a three-outcome function: `-1` exactly on a null
buffer or `dataSize ≤ 0`; otherwise the forward run-counter scan (`runScan`)
decides the result, `1` on early exit when the counter reaches
`continuousCountThreshold`, `0` when the scan completes; when
`continuousCountThreshold > dataSize` the result is `0`, and the `some`
result witnesses that no out-of-bounds access happened. -/
theorem C1_zupt_three_outcomes (vel acc : List ℚ)
    (velO accO : Option (List ℚ)) (ds cct : Int) (t : ℚ) :
    ((velO = none ∨ accO = none ∨ ds ≤ 0) →
      applyZupt velO accO ds t cct = some (-1, velO))
    ∧ (0 < ds → acc.length = ds.toNat → vel.length = ds.toNat →
        ∃ velF : List ℚ,
          applyZupt (some vel) (some acc) ds t cct
            = some ((if runScan t cct 0 acc then 1 else 0), some velF)
          ∧ (cct > ds →
              applyZupt (some vel) (some acc) ds t cct
                = some (0, some velF))) := by
  constructor
  · intro h
    cases velO with
    | none => rfl
    | some velL =>
      cases accO with
      | none => rfl
      | some accL =>
        have hdsle : ds ≤ 0 := by
          rcases h with h | h | h
          · exact absurd h (by simp)
          · exact absurd h (by simp)
          · exact h
        simp only [applyZupt, if_pos hdsle]
  · intro hds ha hv
    have hvalid := applyZupt_valid vel acc ds cct t hds ha hv
    have hlen : vel.length = acc.length := by omega
    refine ⟨(zuptScan t cct 0 acc vel).2, ?_, ?_⟩
    · rw [hvalid, zuptScan_fst t cct acc vel hlen 0]
    · intro hbig
      have hrs : runScan t cct 0 acc = false :=
        runScan_big t cct acc 0 (le_refl 0) (by push_cast; omega)
      rw [hvalid, zuptScan_fst t cct acc vel hlen 0, hrs]
      rfl

/-- Witness for C1: the null/size guard and a run of three small samples
with `continuousCountThreshold = 2`. -/
theorem C1_zupt_three_outcomes_witness :
    (applyZupt none (some [1]) 3 (1 : ℚ) 2 = some (-1, none))
    ∧ (applyZupt (some [5]) (some [1]) 0 (1 : ℚ) 2 = some (-1, some [5]))
    ∧ ∃ velF : List ℚ,
        applyZupt (some [5, 6, 7]) (some [0, 0, 0]) 3 (1 : ℚ) 2
          = some ((if runScan 1 2 0 [0, 0, 0] then 1 else 0), some velF) := by
  refine ⟨?_, ?_, ?_⟩
  · exact (C1_zupt_three_outcomes [] [] none (some [1]) 3 2 1).1 (Or.inl rfl)
  · exact (C1_zupt_three_outcomes [] [] (some [5]) (some [1]) 0 2 1).1
      (Or.inr (Or.inr (by norm_num)))
  · obtain ⟨velF, h1, _⟩ := (C1_zupt_three_outcomes [5, 6, 7] [0, 0, 0]
      none none 3 2 1).2 (by norm_num) (by rfl) (by rfl)
    exact ⟨velF, h1⟩

/-- Claim C2: on a valid call, the final velocity buffer is `0.0` at exactly
the scanned indices (`k < scanLen`) whose sample is below threshold, and
holds its original value at every other index (scanned-but-above, and
everything after the early-exit point). -/
theorem C2_zupt_velocity_effect (vel acc : List ℚ) (ds cct : Int) (t : ℚ)
    (hds : 0 < ds) (ha : acc.length = ds.toNat) (hv : vel.length = ds.toNat) :
    ∃ (code : Int) (velF : List ℚ),
      applyZupt (some vel) (some acc) ds t cct = some (code, some velF)
      ∧ velF.length = vel.length
      ∧ ∀ k : Nat, k < vel.length →
          velF[k]? = if k < scanLen t cct 0 acc ∧ |acc.getD k 0| < t
            then some 0 else vel[k]? := by
  have hvalid := applyZupt_valid vel acc ds cct t hds ha hv
  have hlen : vel.length = acc.length := by omega
  exact ⟨(zuptScan t cct 0 acc vel).1, (zuptScan t cct 0 acc vel).2, hvalid,
    zuptScan_len t cct acc vel hlen 0,
    fun k hk => zuptScan_snd t cct acc vel hlen 0 k hk⟩

/-- Witness for C2: `accel = [0, 5, 0]`, `threshold = 1`, run threshold 2:
index 0 is zeroed, index 1 keeps its value, index 2 is zeroed. -/
theorem C2_zupt_velocity_effect_witness :
    ∃ (code : Int) (velF : List ℚ),
      applyZupt (some [7, 8, 9]) (some [0, 5, 0]) 3 (1 : ℚ) 2
        = some (code, some velF)
      ∧ velF.length = ([7, 8, 9] : List ℚ).length
      ∧ ∀ k : Nat, k < ([7, 8, 9] : List ℚ).length →
          velF[k]? = if k < scanLen 1 2 0 [0, 5, 0] ∧ |([0, 5, 0] : List ℚ).getD k 0| < 1
            then some 0 else ([7, 8, 9] : List ℚ)[k]? :=
  C2_zupt_velocity_effect [7, 8, 9] [0, 5, 0] 3 2 1 (by norm_num) (by rfl)
    (by rfl)

/-- Claim C10: with `continuousCountThreshold ≤ 1` (including zero and
negative values), `applyZupt` returns `1` at the first below-threshold
sample, zeroing the velocity only there; and returns `0` when no sample is
below threshold. -/
theorem C10_zupt_low_run_threshold (vel acc : List ℚ) (ds cct : Int) (t : ℚ)
    (hds : 0 < ds) (hcct : cct ≤ 1)
    (ha : acc.length = ds.toNat) (hv : vel.length = ds.toNat) :
    ((∀ x ∈ acc, ¬ |x| < t) →
      applyZupt (some vel) (some acc) ds t cct = some (0, some vel))
    ∧ (∀ (i0 : Nat) (h0 : i0 < acc.length), |acc.get ⟨i0, h0⟩| < t →
        (∀ j : Nat, j < i0 → ¬ |acc.getD j 0| < t) →
        applyZupt (some vel) (some acc) ds t cct
          = some (1, some (vel.set i0 0))) := by
  have hvalid := applyZupt_valid vel acc ds cct t hds ha hv
  constructor
  · intro hnone
    rw [hvalid, zuptScan_none_below t cct acc hnone vel 0]
  · intro i0 h0 hbelow hfirst
    rw [hvalid, zuptScan_first_below t cct hcct acc vel 0 (le_refl 0)
      (by omega) i0 h0 hbelow hfirst]

/-- Witness for C10 with `continuousCountThreshold = 0`: no sample below
threshold gives 0; first below-threshold sample (index 1) gives 1. -/
theorem C10_zupt_low_run_threshold_witness :
    (applyZupt (some [7, 8]) (some [5, 5]) 2 (1 : ℚ) 0 = some (0, some [7, 8]))
    ∧ applyZupt (some [7, 8]) (some [5, 0]) 2 (1 : ℚ) 0
        = some (1, some (([7, 8] : List ℚ).set 1 0)) := by
  constructor
  · exact (C10_zupt_low_run_threshold [7, 8] [5, 5] 2 0 1 (by norm_num)
      (by norm_num) (by rfl) (by rfl)).1
      (by
        intro x hx
        rcases (by simpa using hx : x = 5 ∨ x = 5) with h | h <;>
          rw [h] <;> norm_num [abs_lt])
  · exact (C10_zupt_low_run_threshold [7, 8] [5, 0] 2 0 1 (by norm_num)
      (by norm_num) (by rfl) (by rfl)).2 1 (by norm_num)
      (by norm_num [abs_lt])
      (by
        intro j hj
        have hj0 : j = 0 := by omega
        subst hj0
        norm_num [abs_lt])

/-- Claim C8 (code bug): `applyLowPassFilter` does NOT obey the
no-op-on-invalid-input contract: it reads `data[0]` before any check, so a
NULL buffer or an empty buffer (`dataSize ≤ 0` with no allocated element) is
a memory fault (`none` in this embedding), not a silent no-op that leaves
the buffer untouched (`some (some [])` respectively `some none`). -/
theorem C8_applyLowPassFilter_reads_unconditionally :
    applyLowPassFilter (some []) 0 = none
    ∧ applyLowPassFilter none 0 = none
    ∧ applyLowPassFilter (some []) 0 ≠ some (some []) := by
  refine ⟨?_, rfl, ?_⟩
  · simp [applyLowPassFilter, readAt]
  · simp [applyLowPassFilter, readAt]

end CDsp
